import Mathlib

/-!
Verification of the concurrent "Ray Tracing in One Weekend" renderer
(src/InOneWeekend/main.cc and its two sibling variants): the row-block job
partitioning, the job execution and result recording, the completion
barrier, the merge into the flat image buffer, the PPM output boundary and
the recursive path integrator `color`.

Float values stored in buffers are represented exactly as rationals (their
numeric values never influence control flow in the modelled code); the
integrator, which normalizes vectors with a square root, is modelled over
the real numbers.  The per-pixel Monte-Carlo sampling loop (camera rays,
random jitter) only produces the color value that a job records, so it is
abstracted as an oracle from pixel coordinates to a color.
-/

namespace Raytracer

/-! ## Colors and jobs (scheduler layer) -/

/-- A `vec3` value as stored in the image buffer and in job result buffers:
three components, in-memory order `e[0], e[1], e[2]` (vec3.h), represented
exactly over the rationals. -/
structure Color3 where
  e0 : ℚ
  e1 : ℚ
  e2 : ℚ
deriving DecidableEq

/-- The zero color: what `memset(&image[0], 0, ...)` leaves in every buffer
entry (main.cc lines 115-116). -/
def czero : Color3 := ⟨0, 0, 0⟩

/-- `struct BlockJob` of main.cc lines 92-100: a row range, the row width,
samples per pixel, and the job-owned result buffers. -/
structure BlockJob where
  rowStart : ℕ
  rowEnd : ℕ
  colSize : ℕ
  spp : ℕ
  indices : List ℕ
  colors : List Color3
deriving DecidableEq

/-- The job list built by main.cc lines 122-146 (identically by the queue
variant, part_000 lines 189-213):
`nJobs = ny / nRowsPerJob`, `leftOver = ny % nThreads`, and job `i` covers
rows `[i*nRowsPerJob, i*nRowsPerJob + nRowsPerJob)`, except that the job
with index `nThreads - 1` additionally absorbs `leftOver` rows.  Faithful
for `1 ≤ nThreads` (`hardware_concurrency` of the running machine; for 0
the C++ `ny % nThreads` is undefined). -/
def makeJobs (ny nRowsPerJob nThreads nx ns : ℕ) : List BlockJob :=
  (List.range (ny / nRowsPerJob)).map fun i =>
    { rowStart := i * nRowsPerJob
      rowEnd :=
        if i = nThreads - 1 then i * nRowsPerJob + nRowsPerJob + ny % nThreads
        else i * nRowsPerJob + nRowsPerJob
      colSize := nx
      spp := ns
      indices := []
      colors := [] }

/-- The flat pixel indices recorded by the per-job nested loop of
main.cc lines 148-163 (CalculateColor in part_000): for each `j` in
`[rowStart, rowEnd)` and each `i` in `[0, colSize)`, in that order, the
index `j * colSize + i`. -/
def jobPixelIndices (job : BlockJob) : List ℕ :=
  (List.range' job.rowStart (job.rowEnd - job.rowStart)).flatMap fun j =>
    (List.range job.colSize).map fun i => j * job.colSize + i

/-- The colors recorded by the same loop, one per recorded index, where
`pixelColor j i` abstracts the samples-per-pixel Monte-Carlo estimate
(including the division by `spp` and the square-root gamma correction). -/
def jobPixelColors (pixelColor : ℕ → ℕ → Color3) (job : BlockJob) : List Color3 :=
  (List.range' job.rowStart (job.rowEnd - job.rowStart)).flatMap fun j =>
    (List.range job.colSize).map fun i => pixelColor j i

/-- The `(index, color)` pairs the loop records, in recording order. -/
def jobPixelPairs (pixelColor : ℕ → ℕ → Color3) (job : BlockJob) : List (ℕ × Color3) :=
  (List.range' job.rowStart (job.rowEnd - job.rowStart)).flatMap fun j =>
    (List.range job.colSize).map fun i => (j * job.colSize + i, pixelColor j i)

/-- One job's execution, main.cc lines 148-164 / CalculateColor of part_000
lines 104-123: each loop iteration does `job.indices.push_back(index)` and
`job.colors.push_back(col)` on the job's own buffers. -/
def runJob (pixelColor : ℕ → ℕ → Color3) (job : BlockJob) : BlockJob :=
  { job with
    indices := job.indices ++ jobPixelIndices job
    colors := job.colors ++ jobPixelColors pixelColor job }

/-! ## Image buffer and merge -/

/-- The flat image buffer, modelled as a total function from flat pixel
index; the program reads only indices below `nx * ny`. -/
def imageInit : ℕ → Color3 := fun _ => czero

/-- Merging one completed job into the buffer (main.cc lines 188-198): the
loop walks `job.colors` with a running `colorIndex` and writes each color at
`job.indices[colorIndex]`.  The local `int index = job.rowStart;` in the
source is never read.  The walk is the zip of the two buffers (they have
equal length for every executed job). -/
def mergeJob (image : ℕ → Color3) (job : BlockJob) : ℕ → Color3 :=
  (job.indices.zip job.colors).foldl (fun img p => Function.update img p.1 p.2) image

/-- Merging every collected job, in collection order. -/
def mergeAll (image : ℕ → Color3) (results : List BlockJob) : ℕ → Color3 :=
  results.foldl mergeJob image

/-- The flat indices the merge step writes: every recorded index of every
collected job. -/
def writtenIndices (results : List BlockJob) : List ℕ :=
  results.flatMap fun job => job.indices

/-! ## Scheduler transition system

The async variant (main.cc lines 132-186): every job runs as its own task;
a completed task locks the mutex, appends its `BlockJob` to `imageBlocks`
and signals `cvResults` (lines 166-170); the orchestrating thread blocks in
`cvResults.wait` until `m_futures.size() == imageBlocks.size()` — and by
that point the launch loop has pushed all `nJobs` futures, so the guard is
"collected results = total job count" — and only then runs the merge.
A state transition is either the completion of one pending job (any one:
the interleaving is unconstrained, which subsumes every worker count and
hardware schedule) or the orchestrator passing the barrier, which the
condition-variable predicate permits only when all results are in. -/

/-- An observable scheduler event: a job's result being appended to the
shared collection, or the condition variable being signaled. -/
inductive Event where
  | appended (job : BlockJob)
  | signaled
deriving DecidableEq

/-- Scheduler state: jobs not yet completed, the shared `imageBlocks`
collection, the event trace, and whether the merge has begun. -/
structure SchedState where
  pending : List BlockJob
  results : List BlockJob
  trace : List Event
  merged : Bool
deriving DecidableEq

/-- The state before any job completes. -/
def initState (jobs : List BlockJob) : SchedState :=
  { pending := jobs, results := [], trace := [], merged := false }

/-- One scheduler transition (see the section comment above). -/
inductive SchedStep (pixelColor : ℕ → ℕ → Color3) (total : ℕ) :
    SchedState → SchedState → Prop where
  | complete (s : SchedState) (pre post : List BlockJob) (job : BlockJob)
      (hp : s.pending = pre ++ job :: post) (hm : s.merged = false) :
      SchedStep pixelColor total s
        { pending := pre ++ post
          results := s.results ++ [runJob pixelColor job]
          trace := s.trace ++ [Event.appended (runJob pixelColor job), Event.signaled]
          merged := false }
  | beginMerge (s : SchedState) (hm : s.merged = false)
      (hcount : s.results.length = total) :
      SchedStep pixelColor total s { s with merged := true }

/-- A state the scheduler can reach from the launch of `jobs`. -/
def Reachable (pixelColor : ℕ → ℕ → Color3) (jobs : List BlockJob)
    (s : SchedState) : Prop :=
  Relation.ReflTransGen (SchedStep pixelColor jobs.length) (initState jobs) s

/-! ## Output boundary (main.cc lines 200-237) -/

/-- One line of the ASCII pixel-map file. -/
inductive PpmLine where
  | header3
  | dims (w h : ℕ)
  | maxval (m : ℕ)
  | pixel (r g b : ℤ)
deriving DecidableEq

/-- C++ `static_cast<int>` on a non-integral value: truncation toward
zero. -/
def cppTrunc (q : ℚ) : ℤ := if 0 ≤ q then ⌊q⌋ else ⌈q⌉

/-- One output channel: `static_cast<int>(255.99f * c)`, the float literal
represented by its decimal value. -/
def ppmChannel (c : ℚ) : ℤ := cppTrunc ((255.99 : ℚ) * c)

/-- The written file (main.cc lines 218-230): header `P3`, dimensions,
`255`, then one line per flat buffer index `i < nx * ny` in order, emitting
`e[2]`, `e[1]`, `e[0]` of `image[i]` (commented "BGR to RGB" in the
source). -/
def writePPM (nx ny : ℕ) (image : ℕ → Color3) : List PpmLine :=
  [PpmLine.header3, PpmLine.dims nx ny, PpmLine.maxval 255] ++
    (List.range (nx * ny)).map fun i =>
      PpmLine.pixel (ppmChannel (image i).e2) (ppmChannel (image i).e1)
        (ppmChannel (image i).e0)

/-- C++ implicit bool-to-int conversion, as in `return false;` from
`int main`. -/
def cppBoolToInt (b : Bool) : ℤ := if b then 1 else 0

/-- What a run reports at exit, and whether the file was saved. -/
structure ExitReport where
  exitCode : ℤ
  fileSaved : Bool
deriving DecidableEq

/-- The tail of `main` (main.cc lines 200-237), after the image buffer is
complete: open the output file; on failure `return false;` (which, from
`int main`, is the integer 0) without writing and without retrying; on
success write the PPM lines and `return 0`.  The merged buffer is passed in
unchanged either way: rendering is already finished. -/
def finishRun (openOk : Bool) (nx ny : ℕ) (image : ℕ → Color3) :
    ExitReport × Option (List PpmLine) :=
  if openOk then
    ({ exitCode := 0, fileSaved := true }, some (writePPM nx ny image))
  else
    ({ exitCode := cppBoolToInt false, fileSaved := false }, none)

/-! ## Path integrator (main.cc lines 31-48), over the real numbers

`vec3`, `ray` and `unit_vector` live in headers that are not among the
provided sources; they are modelled from the spec (§3: "Vec3: three
floating-point components; supports addition, scaling, ... normalization,
elementwise multiply"; "Ray: origin point + direction vector").  The
`color` function itself is translated from main.cc lines 31-48. -/

/-- Modelled from the spec: the `vec3` value type of vec3.h (not under the
provided sources) — three components; `x()`, `y()`, `z()` read
`e[0]`, `e[1]`, `e[2]`. -/
structure vec3 where
  x : ℝ
  y : ℝ
  z : ℝ

/-- Modelled from the spec: componentwise vector addition. -/
instance : Add vec3 := ⟨fun u v => ⟨u.x + v.x, u.y + v.y, u.z + v.z⟩⟩

/-- Modelled from the spec: elementwise vector multiplication, used by the
integrator as `attenuation * color(...)`. -/
instance : Mul vec3 := ⟨fun u v => ⟨u.x * v.x, u.y * v.y, u.z * v.z⟩⟩

/-- Modelled from the spec: scalar scaling of a vector. -/
instance : SMul ℝ vec3 := ⟨fun a v => ⟨a * v.x, a * v.y, a * v.z⟩⟩

theorem vec3.add_def (u v : vec3) :
    u + v = ⟨u.x + v.x, u.y + v.y, u.z + v.z⟩ := rfl

theorem vec3.mul_def (u v : vec3) :
    u * v = ⟨u.x * v.x, u.y * v.y, u.z * v.z⟩ := rfl

theorem vec3.smul_def (a : ℝ) (v : vec3) :
    a • v = ⟨a * v.x, a * v.y, a * v.z⟩ := rfl

/-- Modelled from the spec: the dot product of vec3.h. -/
def dot (u v : vec3) : ℝ := u.x * v.x + u.y * v.y + u.z * v.z

/-- Modelled from the spec: normalization, `v / v.length()` with
`length = sqrt(dot(v, v))`. -/
noncomputable def unit_vector (v : vec3) : vec3 :=
  (1 / Real.sqrt (dot v v)) • v

/-- Modelled from the spec: a ray is an origin point plus a direction
vector. -/
structure ray where
  origin : vec3
  direction : vec3

/-- A scene-with-materials oracle, standing for `world->hit` followed by
`rec.mat_ptr->scatter`: `none` means the ray misses all geometry;
`some none` means it hits a surface whose material absorbs it (scatter
returns false); `some (some (attenuation, scattered))` means it hits and
the material scatters with the given attenuation and scattered ray.  The
hit record's point, normal and `t` influence `color` only through the
scatter outcome, and scatter's randomness is resolved by the oracle. -/
def World : Type := ray → Option (Option (vec3 × ray))

/-- The miss branch of `color` (main.cc lines 43-47): the vertical gradient
`(1-t)*(1,1,1) + t*(0.5,0.7,1.0)` with `t = 0.5*(unit_direction.y() + 1)`. -/
noncomputable def bgColor (r : ray) : vec3 :=
  (1 - (1 / 2 * ((unit_vector r.direction).y + 1))) • (⟨1, 1, 1⟩ : vec3) +
    (1 / 2 * ((unit_vector r.direction).y + 1)) • (⟨1 / 2, 7 / 10, 1⟩ : vec3)

/-- The recursive path integrator, main.cc lines 31-48: on a hit, if
`depth < 50` and the material scatters, recurse with the attenuation
applied; otherwise return black; on a miss, return the background
gradient. -/
noncomputable def color (world : World) (r : ray) (depth : ℕ) : vec3 :=
  match world r with
  | some scat =>
    if depth < 50 then
      match scat with
      | some (attenuation, scattered) => attenuation * color world scattered (depth + 1)
      | none => ⟨0, 0, 0⟩
    else ⟨0, 0, 0⟩
  | none => bgColor r
termination_by 50 - depth
decreasing_by omega

/-- A scene no ray hits. -/
def worldMiss : World := fun _ => none

/-- A ray pointing straight up. -/
def upRay : ray := ⟨⟨0, 0, 0⟩, ⟨0, 1, 0⟩⟩

/-! ## Concrete fixtures for witnesses -/

/-- A pixel-color oracle returning black everywhere. -/
def pcZero : ℕ → ℕ → Color3 := fun _ _ => czero

/-- A pixel-color oracle returning white everywhere. -/
def pcOne : ℕ → ℕ → Color3 := fun _ _ => ⟨1, 1, 1⟩

/-- A 2-wide, one-row job covering row 0. -/
def jobA : BlockJob := ⟨0, 1, 2, 1, [], []⟩

/-- A 2-wide, one-row job covering row 1. -/
def jobB : BlockJob := ⟨1, 2, 2, 1, [], []⟩

/-- A two-job partition of a 2x2 image. -/
def jobsW : List BlockJob := [jobA, jobB]

/-- Run 1 (think: one worker, jobs in order), after `jobA` completes. -/
def stateW1 : SchedState :=
  { pending := [jobB]
    results := [runJob pcZero jobA]
    trace := [Event.appended (runJob pcZero jobA), Event.signaled]
    merged := false }

/-- Run 1 after both jobs complete. -/
def stateW2 : SchedState :=
  { pending := []
    results := [runJob pcZero jobA, runJob pcZero jobB]
    trace := [Event.appended (runJob pcZero jobA), Event.signaled,
      Event.appended (runJob pcZero jobB), Event.signaled]
    merged := false }

/-- Run 1 once the orchestrator passes the barrier. -/
def stateW3 : SchedState := { stateW2 with merged := true }

/-- Run 2 (think: several workers, different completion order and different
random samples), after `jobB` completes first. -/
def stateV1 : SchedState :=
  { pending := [jobA]
    results := [runJob pcOne jobB]
    trace := [Event.appended (runJob pcOne jobB), Event.signaled]
    merged := false }

/-- Run 2 after both jobs complete. -/
def stateV2 : SchedState :=
  { pending := []
    results := [runJob pcOne jobB, runJob pcOne jobA]
    trace := [Event.appended (runJob pcOne jobB), Event.signaled,
      Event.appended (runJob pcOne jobA), Event.signaled]
    merged := false }

/-- Run 2 once the orchestrator passes the barrier. -/
def stateV3 : SchedState := { stateV2 with merged := true }

/-! ## Theorems -/

theorem flatMapRows_eq_range' (w : ℕ) :
    ∀ (k a : ℕ),
      ((List.range' a k).flatMap fun j => (List.range w).map fun i => j * w + i) =
        List.range' (a * w) (k * w) := by
  intro k
  induction k with
  | zero => intro a; simp
  | succ k ih =>
    intro a
    rw [List.range'_succ, List.flatMap_cons, ih (a + 1)]
    rw [show ((List.range w).map fun i => a * w + i) = List.range' (a * w) w from
      (List.range'_eq_map_range _ _).symm]
    rw [show (a + 1) * w = a * w + w by ring, List.range'_append_1]
    congr 1
    ring

/-- The indices a job records form the contiguous flat range
`[rowStart * colSize, rowEnd * colSize)`. -/
theorem jobPixelIndices_eq_range' (job : BlockJob) :
    jobPixelIndices job =
      List.range' (job.rowStart * job.colSize)
        ((job.rowEnd - job.rowStart) * job.colSize) :=
  flatMapRows_eq_range' job.colSize (job.rowEnd - job.rowStart) job.rowStart

/-- Membership in a job's recorded indices is exactly "some pixel
`(row, col)` of the job's row range", row-major flat encoding. -/
theorem mem_jobPixelIndices (job : BlockJob) (n : ℕ) :
    n ∈ jobPixelIndices job ↔
      ∃ r c, job.rowStart ≤ r ∧ r < job.rowEnd ∧ c < job.colSize ∧
        n = r * job.colSize + c := by
  rw [jobPixelIndices_eq_range', List.mem_range'_1]
  rcases Nat.eq_zero_or_pos job.colSize with hw | hw
  · simp [hw]
  constructor
  · rintro ⟨h1, h2⟩
    rcases le_or_lt job.rowStart job.rowEnd with hsr | hsr
    · have e3 : job.rowStart * job.colSize + (job.rowEnd - job.rowStart) * job.colSize =
          job.rowEnd * job.colSize := by
        rw [← Nat.add_mul]
        congr 1
        omega
      refine ⟨n / job.colSize, n % job.colSize, ?_, ?_, Nat.mod_lt _ hw, ?_⟩
      · exact (Nat.le_div_iff_mul_le hw).mpr h1
      · rw [Nat.div_lt_iff_lt_mul hw]
        omega
      · exact (Nat.div_add_mod' n job.colSize).symm
    · have e0 : job.rowEnd - job.rowStart = 0 := by omega
      rw [e0] at h2
      simp at h2
      omega
  · rintro ⟨r, c, hr1, hr2, hc, rfl⟩
    have e1 : job.rowStart * job.colSize ≤ r * job.colSize :=
      Nat.mul_le_mul_right _ hr1
    have e2 : (r + 1) * job.colSize ≤ job.rowEnd * job.colSize :=
      Nat.mul_le_mul_right _ (by omega)
    have e3 : job.rowStart * job.colSize + (job.rowEnd - job.rowStart) * job.colSize =
        job.rowEnd * job.colSize := by
      rw [← Nat.add_mul]
      congr 1
      omega
    have e4 : (r + 1) * job.colSize = r * job.colSize + job.colSize := by ring
    omega

theorem runJob_indices (pc : ℕ → ℕ → Color3) (job : BlockJob) :
    (runJob pc job).indices = job.indices ++ jobPixelIndices job := rfl

theorem runJob_colors (pc : ℕ → ℕ → Color3) (job : BlockJob) :
    (runJob pc job).colors = job.colors ++ jobPixelColors pc job := rfl

/-- C1 (code bug evidence): with the program's fixed configuration
(1200 x 800, 10 rows per job) and a machine reporting
`hardware_concurrency = 3`, the job at position 2 covers rows `[20, 32)`
(because `leftOver = 800 % 3 = 2` rows are absorbed by the job with index
`nThreads - 1 = 2`, not by the last job), so pixel index
`36000 = 30 * 1200` appears in the result sets of both job 2 and job 3:
coverage is not "exactly once". -/
theorem jobs_duplicate_pixel_row30 :
    (makeJobs 800 10 3 1200 10).get? 2 = some ⟨20, 32, 1200, 10, [], []⟩ ∧
    (makeJobs 800 10 3 1200 10).get? 3 = some ⟨30, 40, 1200, 10, [], []⟩ ∧
    36000 ∈ (runJob pcZero ⟨20, 32, 1200, 10, [], []⟩).indices ∧
    36000 ∈ (runJob pcZero ⟨30, 40, 1200, 10, [], []⟩).indices := by
  refine ⟨by decide, by decide, ?_, ?_⟩
  · rw [runJob_indices]
    simp only [List.nil_append, mem_jobPixelIndices]
    exact ⟨30, 0, by norm_num, by norm_num, by norm_num, by norm_num⟩
  · rw [runJob_indices]
    simp only [List.nil_append, mem_jobPixelIndices]
    exact ⟨30, 0, by norm_num, by norm_num, by norm_num, by norm_num⟩

/-- C2 (code bug evidence): for height 10 with 3 rows per block on a
machine reporting `hardware_concurrency = 4`, only 3 jobs are generated,
covering rows `[0, 9)`; no job has index `nThreads - 1 = 3`, so the
remainder row 9 is absorbed nowhere and pixel `45 = 9 * 5` (width 5) is in
no job's result set: the union of the row ranges has a gap. -/
theorem partition_gap_row9 :
    (makeJobs 10 3 4 5 1).length = 3 ∧
    (∀ job ∈ makeJobs 10 3 4 5 1, 45 ∉ (runJob pcZero job).indices) ∧
    45 = 9 * 5 ∧ 9 < 10 := by decide

theorem foldl_update_not_mem (pairs : List (ℕ × Color3)) (image : ℕ → Color3)
    (n : ℕ) (h : ∀ p ∈ pairs, p.1 ≠ n) :
    pairs.foldl (fun img p => Function.update img p.1 p.2) image n = image n := by
  induction pairs generalizing image with
  | nil => rfl
  | cons a t ih =>
    rw [List.foldl_cons, ih _ fun p hp => h p (List.mem_cons_of_mem a hp)]
    exact Function.update_noteq (Ne.symm (h a (List.mem_cons_self a t))) _ _

/-- The merge of one job leaves every index it did not record unchanged. -/
theorem mergeJob_not_mem (image : ℕ → Color3) (job : BlockJob) (n : ℕ)
    (h : n ∉ job.indices) : mergeJob image job n = image n := by
  apply foldl_update_not_mem
  rintro ⟨x, y⟩ hp e
  exact h (e ▸ (List.of_mem_zip hp).1)

/-- The full merge leaves every index recorded by no collected job
unchanged. -/
theorem mergeAll_not_mem (image : ℕ → Color3) (results : List BlockJob)
    (n : ℕ) (h : ∀ job ∈ results, n ∉ job.indices) :
    mergeAll image results n = image n := by
  induction results generalizing image with
  | nil => rfl
  | cons a t ih =>
    rw [mergeAll, List.foldl_cons,
      show List.foldl mergeJob (mergeJob image a) t = mergeAll (mergeJob image a) t from rfl,
      ih _ fun j hj => h j (List.mem_cons_of_mem a hj)]
    exact mergeJob_not_mem image a n (h a (List.mem_cons_self a t))

/-- Invariant of every reachable scheduler state: the collected results
plus the runs of the still-pending jobs are a permutation of the runs of
all launched jobs; the event trace is exactly one append immediately
followed by one signal per collected result; and once the merge has begun,
the collected-result count equals the job count. -/
theorem reachable_invariant (pc : ℕ → ℕ → Color3) (jobs : List BlockJob)
    (s : SchedState) (h : Reachable pc jobs s) :
    (s.results ++ s.pending.map (runJob pc)).Perm (jobs.map (runJob pc)) ∧
    s.trace = s.results.flatMap (fun j => [Event.appended j, Event.signaled]) ∧
    (s.merged = true → s.results.length = jobs.length) := by
  unfold Reachable at h
  induction h with
  | refl =>
    refine ⟨?_, rfl, by simp [initState]⟩
    simp only [initState, List.nil_append]
    exact List.Perm.refl _
  | tail hr step ih =>
    obtain ⟨ih1, ih2, ih3⟩ := ih
    cases step with
    | complete pre post job hp hm =>
      refine ⟨?_, ?_, by simp⟩
      · rw [hp] at ih1
        refine List.Perm.trans ?_ ih1
        simp only [List.map_append, List.map_cons, List.append_assoc,
          List.singleton_append, List.cons_append, List.nil_append]
        exact List.Perm.append_left _ List.perm_middle.symm
      · simp only [ih2, List.flatMap_append, List.flatMap_cons, List.flatMap_nil,
          List.append_nil]
    | beginMerge hm hcount =>
      exact ⟨ih1, ih2, fun _ => hcount⟩

/-- Once the merge has begun, the collected results are exactly the runs of
all launched jobs, in some order. -/
theorem merged_results_perm (pc : ℕ → ℕ → Color3) (jobs : List BlockJob)
    (s : SchedState) (h : Reachable pc jobs s) (hm : s.merged = true) :
    s.results.Perm (jobs.map (runJob pc)) := by
  obtain ⟨h1, -, h3⟩ := reachable_invariant pc jobs s h
  have hlen := h1.length_eq
  simp only [List.length_append, List.length_map] at hlen
  have hres := h3 hm
  have hpend : s.pending = [] := List.length_eq_zero.mp (by omega)
  rw [hpend] at h1
  simpa using h1

theorem trace_append_signal (l : List BlockJob) :
    ∀ (k : ℕ) (j : BlockJob),
      (l.flatMap fun j2 => [Event.appended j2, Event.signaled]).get? k =
        some (Event.appended j) →
      (l.flatMap fun j2 => [Event.appended j2, Event.signaled]).get? (k + 1) =
        some Event.signaled := by
  induction l with
  | nil => intro k j h; simp at h
  | cons a t ih =>
    intro k j h
    match k with
    | 0 => simp [List.flatMap_cons]
    | 1 => simp [List.flatMap_cons] at h
    | Nat.succ (Nat.succ k) =>
      simp only [List.flatMap_cons, List.cons_append, List.nil_append,
        List.get?_cons_succ] at h ⊢
      exact ih k j h

/-- C5: the merge never begins before every job's result has been
collected.  In every reachable scheduler state where the orchestrator has
passed the condition-variable barrier (whose predicate is "collected
results = launched futures = total job count"), the shared collection
holds exactly one result per launched job, and in the event trace every
append of a result is immediately followed by a signal of the condition
variable. -/
theorem merge_begins_only_after_all_results (pc : ℕ → ℕ → Color3)
    (jobs : List BlockJob) (s : SchedState)
    (h : Reachable pc jobs s) (hm : s.merged = true) :
    s.results.length = jobs.length ∧
    s.results.Perm (jobs.map (runJob pc)) ∧
    ∀ k j, s.trace.get? k = some (Event.appended j) →
      s.trace.get? (k + 1) = some Event.signaled := by
  have hperm := merged_results_perm pc jobs s h hm
  refine ⟨by simpa using hperm.length_eq, hperm, ?_⟩
  obtain ⟨-, h2, -⟩ := reachable_invariant pc jobs s h
  rw [h2]
  exact trace_append_signal s.results

/-- Witness for C5 at a concrete two-job run driven to completion. -/
theorem merge_begins_only_after_all_results_witness :
    stateW3.results.length = jobsW.length ∧
    stateW3.results.Perm (jobsW.map (runJob pcZero)) ∧
    ∀ k j, stateW3.trace.get? k = some (Event.appended j) →
      stateW3.trace.get? (k + 1) = some Event.signaled :=
  merge_begins_only_after_all_results pcZero jobsW stateW3
    (Relation.ReflTransGen.tail
      (Relation.ReflTransGen.tail
        (Relation.ReflTransGen.single
          (SchedStep.complete (initState jobsW) [] [jobB] jobA rfl rfl))
        (SchedStep.complete stateW1 [] [] jobB rfl rfl))
      (SchedStep.beginMerge stateW2 rfl rfl))
    rfl

/-- C3: the set of flat indices the merge writes does not depend on the
interleaving of job completions (hence not on the worker count) nor on the
sampled colors: any two completed runs over the same job list write the
same index set. -/
theorem written_index_set_schedule_independent
    (pc1 pc2 : ℕ → ℕ → Color3) (jobs : List BlockJob) (s1 s2 : SchedState)
    (h1 : Reachable pc1 jobs s1) (hm1 : s1.merged = true)
    (h2 : Reachable pc2 jobs s2) (hm2 : s2.merged = true) :
    (writtenIndices s1.results).toFinset = (writtenIndices s2.results).toFinset := by
  have p1 := merged_results_perm pc1 jobs s1 h1 hm1
  have p2 := merged_results_perm pc2 jobs s2 h2 hm2
  ext n
  simp only [List.mem_toFinset, writtenIndices, List.mem_flatMap]
  constructor
  · rintro ⟨job, hj, hn⟩
    obtain ⟨j0, hj0, rfl⟩ := List.mem_map.mp (p1.mem_iff.mp hj)
    refine ⟨runJob pc2 j0, p2.mem_iff.mpr (List.mem_map_of_mem _ hj0), ?_⟩
    rw [runJob_indices] at hn ⊢
    exact hn
  · rintro ⟨job, hj, hn⟩
    obtain ⟨j0, hj0, rfl⟩ := List.mem_map.mp (p2.mem_iff.mp hj)
    refine ⟨runJob pc1 j0, p1.mem_iff.mpr (List.mem_map_of_mem _ hj0), ?_⟩
    rw [runJob_indices] at hn ⊢
    exact hn

/-- Witness for C3: a 1-worker-order run and a reversed-order run with
different sampled colors write the same index set. -/
theorem written_index_set_schedule_independent_witness :
    (writtenIndices stateW3.results).toFinset =
      (writtenIndices stateV3.results).toFinset :=
  written_index_set_schedule_independent pcZero pcOne jobsW stateW3 stateV3
    (Relation.ReflTransGen.tail
      (Relation.ReflTransGen.tail
        (Relation.ReflTransGen.single
          (SchedStep.complete (initState jobsW) [] [jobB] jobA rfl rfl))
        (SchedStep.complete stateW1 [] [] jobB rfl rfl))
      (SchedStep.beginMerge stateW2 rfl rfl))
    rfl
    (Relation.ReflTransGen.tail
      (Relation.ReflTransGen.tail
        (Relation.ReflTransGen.single
          (SchedStep.complete (initState jobsW) [jobA] [] jobB rfl rfl))
        (SchedStep.complete stateV1 [] [] jobA rfl rfl))
      (SchedStep.beginMerge stateV2 rfl rfl))
    rfl

theorem jobPixelPairs_fst (pc : ℕ → ℕ → Color3) (job : BlockJob) :
    (jobPixelPairs pc job).map Prod.fst = jobPixelIndices job := by
  simp only [jobPixelPairs, jobPixelIndices, List.map_flatMap, List.map_map]
  rfl

theorem jobPixelPairs_snd (pc : ℕ → ℕ → Color3) (job : BlockJob) :
    (jobPixelPairs pc job).map Prod.snd = jobPixelColors pc job := by
  simp only [jobPixelPairs, jobPixelColors, List.map_flatMap, List.map_map]
  rfl

/-- C9: after a job executes on empty result buffers, its index and color
buffers have equal length and zip to exactly the `(index, color)` pairs of
its pixels; the recorded indices are exactly the row-major encodings
`r * colSize + c` of the job's pixel grid, in strictly increasing
(row-major) order; and the merge step reads only the recorded indices — a
job with its `rowStart` field replaced by anything merges identically. -/
theorem runJob_result_invariants (pc : ℕ → ℕ → Color3) (job : BlockJob)
    (hi : job.indices = []) (hc : job.colors = []) :
    (runJob pc job).indices.length = (runJob pc job).colors.length ∧
    (runJob pc job).indices.zip (runJob pc job).colors = jobPixelPairs pc job ∧
    (∀ n, n ∈ (runJob pc job).indices ↔
      ∃ r c, job.rowStart ≤ r ∧ r < job.rowEnd ∧ c < job.colSize ∧
        n = r * job.colSize + c) ∧
    (runJob pc job).indices.Pairwise (· < ·) ∧
    ∀ (image : ℕ → Color3) (rs : ℕ),
      mergeJob image { runJob pc job with rowStart := rs } =
        mergeJob image (runJob pc job) := by
  have hind : (runJob pc job).indices = (jobPixelPairs pc job).map Prod.fst := by
    rw [runJob_indices, hi, List.nil_append, jobPixelPairs_fst]
  have hcol : (runJob pc job).colors = (jobPixelPairs pc job).map Prod.snd := by
    rw [runJob_colors, hc, List.nil_append, jobPixelPairs_snd]
  refine ⟨?_, ?_, ?_, ?_, fun image rs => rfl⟩
  · rw [hind, hcol, List.length_map, List.length_map]
  · rw [hind, hcol, List.zip_map']
    simp
  · intro n
    rw [runJob_indices, hi, List.nil_append]
    exact mem_jobPixelIndices job n
  · rw [runJob_indices, hi, List.nil_append, jobPixelIndices_eq_range']
    exact List.pairwise_lt_range' _ _

/-- Witness for C9 at a concrete job. -/
theorem runJob_result_invariants_witness :
    (runJob pcZero jobA).indices.length = (runJob pcZero jobA).colors.length ∧
    (runJob pcZero jobA).indices.zip (runJob pcZero jobA).colors =
      jobPixelPairs pcZero jobA ∧
    (∀ n, n ∈ (runJob pcZero jobA).indices ↔
      ∃ r c, jobA.rowStart ≤ r ∧ r < jobA.rowEnd ∧ c < jobA.colSize ∧
        n = r * jobA.colSize + c) ∧
    (runJob pcZero jobA).indices.Pairwise (· < ·) ∧
    ∀ (image : ℕ → Color3) (rs : ℕ),
      mergeJob image { runJob pcZero jobA with rowStart := rs } =
        mergeJob image (runJob pcZero jobA) :=
  runJob_result_invariants pcZero jobA rfl rfl

/-- C10: the image buffer starts zeroed, the merge writes only at indices
some collected job recorded, and every other entry is still zero and is
emitted by the writer as the black pixel `0 0 0`. -/
theorem unwritten_pixels_black (results : List BlockJob) (n : ℕ)
    (h : ∀ job ∈ results, n ∉ job.indices) :
    (∀ image : ℕ → Color3, mergeAll image results n = image n) ∧
    mergeAll imageInit results n = czero ∧
    ∀ nx ny : ℕ, n < nx * ny →
      (writePPM nx ny (mergeAll imageInit results)).get? (3 + n) =
        some (PpmLine.pixel 0 0 0) := by
  refine ⟨fun image => mergeAll_not_mem image results n h, ?_, ?_⟩
  · rw [mergeAll_not_mem _ _ _ h]
    rfl
  · intro nx ny hn
    rw [writePPM, List.get?_append_right (by simp)]
    have hlen : ([PpmLine.header3, PpmLine.dims nx ny, PpmLine.maxval 255]).length = 3 := rfl
    rw [hlen, show 3 + n - 3 = n by omega, List.get?_map,
      List.get?_range hn]
    simp only [Option.map_some']
    rw [mergeAll_not_mem _ _ _ h]
    norm_num [ppmChannel, cppTrunc, czero, imageInit]

/-- Witness for C10: index 3 of a 2x2 image is recorded by no collected
job, and the written file shows black there. -/
theorem unwritten_pixels_black_witness :
    (∀ image : ℕ → Color3, mergeAll image [runJob pcZero jobA] 3 = image 3) ∧
    mergeAll imageInit [runJob pcZero jobA] 3 = czero ∧
    ∀ nx ny : ℕ, 3 < nx * ny →
      (writePPM nx ny (mergeAll imageInit [runJob pcZero jobA])).get? (3 + 3) =
        some (PpmLine.pixel 0 0 0) :=
  unwritten_pixels_black [runJob pcZero jobA] 3 (by decide)

/-- C7: given a buffer whose channels are non-negative on the image range
(true of every rendered buffer: entries are zero or square roots of
averages), the written file is the `P3` header line, the dimension line,
the `255` line, then one pixel line per flat buffer index in row-major
buffer order whose three integers are `floor(255.99 * channel)` of the
components taken in reverse in-memory order `e[2], e[1], e[0]`. -/
theorem writePPM_format (nx ny : ℕ) (image : ℕ → Color3)
    (h : ∀ i, i < nx * ny →
      0 ≤ (image i).e0 ∧ 0 ≤ (image i).e1 ∧ 0 ≤ (image i).e2) :
    writePPM nx ny image =
      [PpmLine.header3, PpmLine.dims nx ny, PpmLine.maxval 255] ++
        (List.range (nx * ny)).map fun i =>
          PpmLine.pixel ⌊(255.99 : ℚ) * (image i).e2⌋
            ⌊(255.99 : ℚ) * (image i).e1⌋ ⌊(255.99 : ℚ) * (image i).e0⌋ := by
  have hchan : ∀ c : ℚ, 0 ≤ c → ppmChannel c = ⌊(255.99 : ℚ) * c⌋ := by
    intro c hcge
    rw [ppmChannel, cppTrunc, if_pos (mul_nonneg (by norm_num) hcge)]
  rw [writePPM]
  congr 1
  apply List.map_congr_left
  intro i hi
  rw [List.mem_range] at hi
  obtain ⟨h0, h1, h2⟩ := h i hi
  rw [hchan _ h2, hchan _ h1, hchan _ h0]

/-- Witness for C7 at a concrete 2x1 buffer. -/
theorem writePPM_format_witness :
    writePPM 2 1 (fun _ => (⟨1 / 5, 1 / 2, 1⟩ : Color3)) =
      [PpmLine.header3, PpmLine.dims 2 1, PpmLine.maxval 255] ++
        (List.range (2 * 1)).map (fun i =>
          PpmLine.pixel ⌊(255.99 : ℚ) * ((fun _ => (⟨1 / 5, 1 / 2, 1⟩ : Color3)) i).e2⌋
            ⌊(255.99 : ℚ) * ((fun _ => (⟨1 / 5, 1 / 2, 1⟩ : Color3)) i).e1⌋
            ⌊(255.99 : ℚ) * ((fun _ => (⟨1 / 5, 1 / 2, 1⟩ : Color3)) i).e0⌋) :=
  writePPM_format 2 1 (fun _ => ⟨1 / 5, 1 / 2, 1⟩)
    (fun i _ => ⟨by norm_num, by norm_num, by norm_num⟩)

/-- C6 (code bug evidence): when the output file cannot be opened, `main`
executes `return false;`, and the C++ bool-to-int conversion makes that
exit status 0 — the very value the success path returns — so the failure
is not distinguishable from success by the caller; the merged buffer is
untouched by the output stage and no second open is attempted (the model
has a single open), but no file is written. -/
theorem open_failure_exit_indistinguishable :
    (finishRun false 1200 800 imageInit).1.exitCode =
      (finishRun true 1200 800 imageInit).1.exitCode ∧
    (finishRun false 1200 800 imageInit).1.exitCode = 0 ∧
    (finishRun false 1200 800 imageInit).1.fileSaved = false ∧
    (finishRun false 1200 800 imageInit).2 = none ∧
    (finishRun true 1200 800 imageInit).2 = some (writePPM 1200 800 imageInit) :=
  ⟨rfl, rfl, rfl, rfl, rfl⟩

/-! ## Integrator theorems -/

theorem color_eq (world : World) (r : ray) (depth : ℕ) :
    color world r depth =
      match world r with
      | some scat =>
        if depth < 50 then
          match scat with
          | some (attenuation, scattered) =>
            attenuation * color world scattered (depth + 1)
          | none => ⟨0, 0, 0⟩
        else ⟨0, 0, 0⟩
      | none => bgColor r := by
  rw [color]

/-- On a miss, `color` returns the background gradient at every depth. -/
theorem color_of_miss (world : World) (r : ray) (depth : ℕ)
    (h : world r = none) : color world r depth = bgColor r := by
  rw [color_eq, h]

/-- On a hit at or past the bounce cap, `color` returns black: the
`depth < 50` test fails before the material is consulted. -/
theorem color_hit_capped (world : World) (r : ray) (depth : ℕ)
    (hd : 50 ≤ depth) (scat : Option (vec3 × ray)) (h : world r = some scat) :
    color world r depth = ⟨0, 0, 0⟩ := by
  rw [color_eq, h]
  simp [Nat.not_lt.mpr hd]

theorem color_mirror_fuel (world : World)
    (hm : ∀ r2 : ray, ∃ a s2, world r2 = some (some (a, s2))) :
    ∀ (n : ℕ) (r : ray) (depth : ℕ), 50 ≤ depth + n →
      color world r depth = ⟨0, 0, 0⟩ := by
  intro n
  induction n with
  | zero =>
    intro r depth hd
    obtain ⟨a, s2, hs⟩ := hm r
    exact color_hit_capped world r depth (by omega) _ hs
  | succ n ih =>
    intro r depth hd
    obtain ⟨a, s2, hs⟩ := hm r
    by_cases hlt : depth < 50
    · rw [color_eq, hs]
      simp only [if_pos hlt]
      rw [ih s2 (depth + 1) (by omega), vec3.mul_def]
      simp
    · exact color_hit_capped world r depth (by omega) _ hs

/-- C4 counterexample: at depth 50 a ray that misses the whole scene does
not return black — straight up it returns the sky color, so `color` with
depth ≥ 50 is not unconditionally zero. -/
theorem color_depth50_miss_not_black :
    color worldMiss upRay 50 ≠ (⟨0, 0, 0⟩ : vec3) := by
  rw [color_of_miss worldMiss upRay 50 rfl]
  rw [bgColor]
  intro hcontra
  have hs : Real.sqrt (dot upRay.direction upRay.direction) = 1 := by
    show Real.sqrt (0 * 0 + 1 * 1 + 0 * 0) = 1
    norm_num
  have hy : (unit_vector upRay.direction).y = 1 := by
    rw [unit_vector, vec3.smul_def, hs]
    norm_num
    rfl
  rw [vec3.smul_def, vec3.smul_def, vec3.add_def] at hcontra
  rw [hy] at hcontra
  have h2 := congrArg vec3.z hcontra
  simp at h2

/-- C4 amended: with `depth ≥ 50` the integrator returns black for every
ray that hits the scene (the scatter test is short-circuited by the bounce
cap); consequently in an all-mirror world — every ray hits and scatters —
`color` is identically black from every starting depth, so a trapped ray
contributes zero radiance and the recursion never proceeds past the cap.
(A ray that misses everything still returns the background gradient at any
depth, which is what refutes the unconditional form of the claim.) -/
theorem color_bounce_cap (world : World) :
    (∀ (r : ray) (depth : ℕ), 50 ≤ depth → (world r).isSome →
      color world r depth = ⟨0, 0, 0⟩) ∧
    ((∀ r2 : ray, ∃ a s2, world r2 = some (some (a, s2))) →
      ∀ (r : ray) (depth : ℕ), color world r depth = ⟨0, 0, 0⟩) := by
  constructor
  · intro r depth hd hs
    obtain ⟨scat, hscat⟩ := Option.isSome_iff_exists.mp hs
    exact color_hit_capped world r depth hd scat hscat
  · intro hm r depth
    exact color_mirror_fuel world hm 50 r depth (by omega)

theorem unit_vector_vertical (c : ℝ) (hc : 0 < c) :
    unit_vector ⟨0, c, 0⟩ = ⟨0, 1, 0⟩ ∧ unit_vector ⟨0, -c, 0⟩ = ⟨0, -1, 0⟩ := by
  have hs : Real.sqrt (0 * 0 + c * c + 0 * 0) = c := by
    rw [show (0 * 0 + c * c + 0 * 0 : ℝ) = c * c by ring,
      Real.sqrt_mul_self hc.le]
  have hs2 : Real.sqrt (0 * 0 + -c * -c + 0 * 0) = c := by
    rw [show (0 * 0 + -c * -c + 0 * 0 : ℝ) = c * c by ring,
      Real.sqrt_mul_self hc.le]
  constructor
  · rw [unit_vector, vec3.smul_def]
    show (⟨1 / Real.sqrt (0 * 0 + c * c + 0 * 0) * 0,
      1 / Real.sqrt (0 * 0 + c * c + 0 * 0) * c,
      1 / Real.sqrt (0 * 0 + c * c + 0 * 0) * 0⟩ : vec3) = ⟨0, 1, 0⟩
    rw [hs]
    field_simp
  · rw [unit_vector, vec3.smul_def]
    show (⟨1 / Real.sqrt (0 * 0 + -c * -c + 0 * 0) * 0,
      1 / Real.sqrt (0 * 0 + -c * -c + 0 * 0) * -c,
      1 / Real.sqrt (0 * 0 + -c * -c + 0 * 0) * 0⟩ : vec3) = ⟨0, -1, 0⟩
    rw [hs2]
    field_simp

/-- C8: a ray that misses all scene geometry evaluates to the vertical
gradient `(1-t)*(1,1,1) + t*(0.5,0.7,1.0)` with
`t = 0.5*((unit_vector direction).y + 1)`; a direction pointing straight up
(normalized y = 1) gives the sky color `(0.5, 0.7, 1.0)` and straight down
(normalized y = -1) gives white `(1, 1, 1)`. -/
theorem color_miss_background_gradient (world : World) (r : ray)
    (depth : ℕ) (hmiss : world r = none) :
    color world r depth =
      (1 - 1 / 2 * ((unit_vector r.direction).y + 1)) • (⟨1, 1, 1⟩ : vec3) +
        (1 / 2 * ((unit_vector r.direction).y + 1)) •
          (⟨1 / 2, 7 / 10, 1⟩ : vec3) ∧
    (∀ c : ℝ, 0 < c → r.direction = ⟨0, c, 0⟩ →
      color world r depth = ⟨1 / 2, 7 / 10, 1⟩) ∧
    (∀ c : ℝ, 0 < c → r.direction = ⟨0, -c, 0⟩ →
      color world r depth = ⟨1, 1, 1⟩) := by
  have hbase : color world r depth = bgColor r := color_of_miss world r depth hmiss
  refine ⟨by rw [hbase, bgColor], ?_, ?_⟩
  · intro c hc hdir
    rw [hbase, bgColor, hdir, (unit_vector_vertical c hc).1]
    show ((1 - 1 / 2 * (1 + 1)) • (⟨1, 1, 1⟩ : vec3) +
      (1 / 2 * (1 + 1)) • (⟨1 / 2, 7 / 10, 1⟩ : vec3)) = ⟨1 / 2, 7 / 10, 1⟩
    rw [vec3.smul_def, vec3.smul_def, vec3.add_def]
    norm_num
  · intro c hc hdir
    rw [hbase, bgColor, hdir, (unit_vector_vertical c hc).2]
    show ((1 - 1 / 2 * (-1 + 1)) • (⟨1, 1, 1⟩ : vec3) +
      (1 / 2 * (-1 + 1)) • (⟨1 / 2, 7 / 10, 1⟩ : vec3)) = ⟨1, 1, 1⟩
    rw [vec3.smul_def, vec3.smul_def, vec3.add_def]
    norm_num

/-- Witness for C8 at a concrete miss-everything world and the straight-up
ray. -/
theorem color_miss_background_gradient_witness :
    color worldMiss upRay 0 =
      (1 - 1 / 2 * ((unit_vector upRay.direction).y + 1)) • (⟨1, 1, 1⟩ : vec3) +
        (1 / 2 * ((unit_vector upRay.direction).y + 1)) •
          (⟨1 / 2, 7 / 10, 1⟩ : vec3) ∧
    (∀ c : ℝ, 0 < c → upRay.direction = ⟨0, c, 0⟩ →
      color worldMiss upRay 0 = ⟨1 / 2, 7 / 10, 1⟩) ∧
    (∀ c : ℝ, 0 < c → upRay.direction = ⟨0, -c, 0⟩ →
      color worldMiss upRay 0 = ⟨1, 1, 1⟩) :=
  color_miss_background_gradient worldMiss upRay 0 rfl

end Raytracer
